import Mathlib

/-!
Verification of the printtree rendering engine: a shallow embedding of the
tree data structure, the style registry, the ordinal converters, the
placeholder substitution and the recursive renderer, together with theorems
settling the specified properties.

Conventions of the embedding: Go strings become Lean `String` (with `.data`
for character-level reasoning), Go slices become `List`, Go `int` becomes
`Int` where negative values are reachable (style identifiers, ordinal
inputs) and `Nat` where they are not (depths, sibling indexes, which start
at 0 and only ever grow).  The mutable receiver methods become functions
returning the updated value.  The mutable global style registry becomes an
explicit registry argument where registration matters.
-/

namespace PrintTree

/-- Embeds the `Tree` struct: a label (empty in a root node) and an ordered
list of branches. -/
inductive Tree where
  | mk (label : String) (branches : List Tree)
deriving Inhabited

/-- Projection for the `Label` field. -/
def Tree.label : Tree → String
  | ⟨l, _⟩ => l

/-- Projection for the `Branches` field. -/
def Tree.branches : Tree → List Tree
  | ⟨_, bs⟩ => bs

@[simp] theorem Tree.label_mk (l : String) (bs : List Tree) : (Tree.mk l bs).label = l := rfl

@[simp] theorem Tree.branches_mk (l : String) (bs : List Tree) :
    (Tree.mk l bs).branches = bs := rfl

/-- Style identifiers (`TreeStyle`): plain integers, negative values reachable. -/
abbrev TreeStyle := Int

def ASCIIStyle : TreeStyle := 0
def BoxStyle : TreeStyle := 1
def BoxBoldStyle : TreeStyle := 2
def ASCIINarrowStyle : TreeStyle := 3
def BoxNarrowStyle : TreeStyle := 4
def BoxBoldNarrowStyle : TreeStyle := 5
def WhiteSpaceStyle : TreeStyle := 6
def ASCIIBulletStyle : TreeStyle := 7
def BulletStyle : TreeStyle := 8
def OrderedStyle : TreeStyle := 9
def NumberStyle : TreeStyle := 10
def AlphaStyle : TreeStyle := 11
def AlphaUCStyle : TreeStyle := 12
def RomanStyle : TreeStyle := 13
def RomanUCStyle : TreeStyle := 14

/-- Positions of the structural scaffolding markup inside `markup`. -/
def midBranchScaffold : Nat := 0
def lastBranchScaffold : Nat := 1
def bypassBranchScaffold : Nat := 2
def noBranchScaffold : Nat := 3

/-- Positions of the list scaffolding markup inside `markup`. -/
def indentList : Nat := 0
def levelList : Nat := 1

/-- Embeds the `scaffolding` struct. -/
structure scaffolding where
  isList : Bool
  markup : List String
deriving Inhabited, DecidableEq

/-- Embeds the initial value of the global `scaffoldingDict` slice. -/
def scaffoldingDict : List scaffolding :=
  [⟨false, ["|-- ", "'-- ", "|   ", "    "]⟩,
   ⟨false, ["├── ", "╰── ", "│   ", "    "]⟩,
   ⟨false, ["┣━━ ", "┗━━ ", "┃   ", "    "]⟩,
   ⟨false, ["|-", "'-", "| ", "  "]⟩,
   ⟨false, ["├ ", "╰ ", "│ ", "  "]⟩,
   ⟨false, ["┣ ", "┗ ", "┃ ", "  "]⟩,
   ⟨true, ["    ", "    "]⟩,
   ⟨true, ["  ", "* ", "+ ", "- "]⟩,
   ⟨true, ["  ", "● ", "○ ", "■ ", "□ "]⟩,
   ⟨true, ["    ", " 1. ", " a. ", " i. ", " A. ", " I. "]⟩,
   ⟨true, ["    ", " 1. "]⟩,
   ⟨true, ["    ", " a. "]⟩,
   ⟨true, ["    ", " A. "]⟩,
   ⟨true, ["      ", "   i. "]⟩,
   ⟨true, ["      ", "   I. "]⟩]

/-- Embeds `AddStructuralStyle`: appends a structural descriptor to the
registry and returns the new registry together with the new identifier. -/
def AddStructuralStyle (dict : List scaffolding)
    (middleBranch lastBranch bypassBranch noBranch : String) :
    List scaffolding × TreeStyle :=
  (dict ++ [⟨false, [middleBranch, lastBranch, bypassBranch, noBranch]⟩],
   (dict.length : Int))

/-- Embeds `AddListStyle`: appends a list descriptor whose markup is the
indent followed by the bullet templates, and returns the new registry
together with the new identifier.  The Go source performs no validation of
the bullet list. -/
def AddListStyle (dict : List scaffolding) (indent : String) (bullets : List String) :
    List scaffolding × TreeStyle :=
  (dict ++ [⟨true, indent :: bullets⟩], (dict.length : Int))

/-- Embeds `AddBranch` (appends a new leaf branch with the given label). -/
def Tree.addBranch (tree : Tree) (branchName : String) : Tree :=
  Tree.mk tree.label (tree.branches ++ [Tree.mk branchName []])

/-- Embeds `AddTreeAsBranch`: an unlabeled `other` is treated as a root and
its branches are spliced in; a labeled `other` is appended as one branch. -/
def Tree.addTreeAsBranch (tree other : Tree) : Tree :=
  if other.label = "" then Tree.mk tree.label (tree.branches ++ other.branches)
  else Tree.mk tree.label (tree.branches ++ [other])

/-- Comparison used by `Sort`: `sort.SliceStable` with the strict order
`Label < Label` computes the unique stable sort by label, which is
`List.mergeSort` with the total comparison `Label ≤ Label`. -/
def branchLE (a b : Tree) : Bool := decide (a.label ≤ b.label)

/-- Embeds `Sort`: stable sort of the immediate branches by label. -/
def Tree.sort : Tree → Tree
  | ⟨l, bs⟩ => ⟨l, bs.mergeSort branchLE⟩

/-- Embeds `DeepSort`: sorts the immediate branches, then recursively
deep-sorts every branch. -/
def Tree.deepSort : Tree → Tree
  | ⟨l, bs⟩ => ⟨l, (bs.mergeSort branchLE).attach.map (fun b => Tree.deepSort b.1)⟩
decreasing_by
  rename_i bs0
  have hmem : b.1 ∈ bs0.mergeSort branchLE := b.2
  have h1 : sizeOf b.1 < sizeOf bs0 := List.sizeOf_lt_of_mem (List.mem_mergeSort.mp hmem)
  simp only [Tree.mk.sizeOf_spec]
  omega

/-- Embeds `convertToAlpha`: the loop body prepends the digit
`(n-1) % 26` (as a lowercase letter) and continues with `(n-1) / 26`.
The loop is written with explicit fuel; since `n` strictly decreases on
every iteration, fuel `n` is enough, which `alphaBuild_succ` makes exact. -/
def alphaGo : Nat → Nat → List Char
  | 0, _ => []
  | _, 0 => []
  | fuel + 1, n + 1 => alphaGo fuel (n / 26) ++ [Char.ofNat (n % 26 + 97)]

/-- The alphabetic loop of `convertToAlpha` run to completion on `n`. -/
def alphaBuild (n : Nat) : List Char := alphaGo n n

/-- Embeds `convertToAlpha` including its non-positive guard. -/
def convertToAlpha (n : Int) : String :=
  if n ≤ 0 then "-" else String.mk (alphaBuild n.toNat)

/-- Embeds the `romanMap` table entries. -/
structure RomanEntry where
  value : Nat
  key : String
deriving Inhabited, DecidableEq

/-- Embeds the `romanMap` table, in source order (descending values). -/
def romanMap : List RomanEntry :=
  [⟨1000, "m"⟩, ⟨900, "cm"⟩, ⟨500, "d"⟩, ⟨400, "cd"⟩, ⟨100, "c"⟩, ⟨90, "xc"⟩,
   ⟨50, "l"⟩, ⟨40, "xl"⟩, ⟨10, "x"⟩, ⟨9, "ix"⟩, ⟨5, "v"⟩, ⟨4, "iv"⟩, ⟨1, "i"⟩]

/-- Embeds the loop of `convertToRoman`: on each iteration the first table
entry whose value is at most `n` is appended and subtracted.  Written with
explicit fuel; since the value found is at least 1, `n` strictly decreases
and fuel `n` is enough, which `romanBuild_succ` makes exact. -/
def romanGo : Nat → Nat → String
  | 0, _ => ""
  | _, 0 => ""
  | fuel + 1, n + 1 =>
    match romanMap.find? (fun rn => decide (rn.value ≤ n + 1)) with
    | none => ""
    | some rn => rn.key ++ romanGo fuel (n + 1 - rn.value)

/-- The Roman loop of `convertToRoman` run to completion on `n`. -/
def romanBuild (n : Nat) : String := romanGo n n

/-- Embeds `convertToRoman` including its non-positive guard. -/
def convertToRoman (n : Int) : String :=
  if n ≤ 0 then "-" else romanBuild n.toNat

/-- Embeds `strings.ToUpper` for the ASCII strings produced here. -/
def toUpperString (s : String) : String := String.mk (s.data.map Char.toUpper)

/-- Greedy match of the regular expression pattern `" *c"` anchored at the
start of `l`: consume as many spaces as possible, backtracking until the
single character `c` matches.  Returns the length of the match. -/
def regexMatchAt (c : Char) : List Char → Option Nat
  | [] => none
  | x :: rest =>
    if x = ' ' then
      match regexMatchAt c rest with
      | some n => some (n + 1)
      | none => if x = c then some 1 else none
    else if x = c then some 1 else none

/-- Leftmost match of the pattern `" *c"` in `l`: the first start position
(tracked by `start`) at which `regexMatchAt` succeeds, as the half-open
interval returned by `FindIndex`. -/
def regexFind (c : Char) : List Char → Nat → Option (Nat × Nat)
  | [], _ => none
  | x :: rest, start =>
    match regexMatchAt c (x :: rest) with
    | some len => some (start, start + len)
    | none => regexFind c rest (start + 1)

/-- Embeds `fmt.Sprintf("%*s", width, v)`: pad `v` on the left with spaces
up to `width`; a value at least as wide is returned unchanged. -/
def padValue (width : Nat) (v : String) : String :=
  if v.data.length < width
  then String.mk (List.replicate (width - v.data.length) ' ') ++ v
  else v

/-- Embeds `replaceNumberPlaceholder`: find the leftmost match of the
pattern `" *placeholder"` (the placeholder together with the run of spaces
to its left) and replace that span with `actualValue` right-aligned to the
width of the span.  The Go source builds the pattern from a single
placeholder character, embedded here as `Char`. -/
def replaceNumberPlaceholder (s : String) (placeholder : Char) (actualValue : String) :
    String :=
  match regexFind placeholder s.data 0 with
  | none => s
  | some (lo, hi) =>
    String.mk (s.data.take lo) ++ padValue (hi - lo) actualValue ++ String.mk (s.data.drop hi)

/-- Embeds `replaceNumberListMarkup`: the first recognized placeholder
character, in the fixed priority order 1, a, A, i, I, selects the ordinal
conversion; a markup with none is returned verbatim. -/
def replaceNumberListMarkup (markup : String) (index : Int) : String :=
  if markup.data.contains '1' then
    replaceNumberPlaceholder markup '1' (toString index)
  else if markup.data.contains 'a' then
    replaceNumberPlaceholder markup 'a' (convertToAlpha index)
  else if markup.data.contains 'A' then
    replaceNumberPlaceholder markup 'A' (toUpperString (convertToAlpha index))
  else if markup.data.contains 'i' then
    replaceNumberPlaceholder markup 'i' (convertToRoman index)
  else if markup.data.contains 'I' then
    replaceNumberPlaceholder markup 'I' (toUpperString (convertToRoman index))
  else markup

/-- Embeds `labelPadding`: the markup placed before the first line of the
label of the branch at position `index` among the `tree` branches, rendered
at nesting depth `depth`. -/
def labelPadding (tree : Tree) (depth : Nat) (index : Nat) (scaffold : scaffolding) :
    String :=
  if depth = 0 then ""
  else if scaffold.isList then
    replaceNumberListMarkup
      (scaffold.markup.getD (levelList + (depth - 1) % (scaffold.markup.length - 1)) "")
      ((index : Int) + 1)
  else if index = tree.branches.length - 1 then
    scaffold.markup.getD lastBranchScaffold ""
  else scaffold.markup.getD midBranchScaffold ""

/-- Embeds `flowPadding`: the markup placed before continuation lines of a
multi-line label and prepended to the indent passed to the branch children. -/
def flowPadding (tree : Tree) (depth : Nat) (index : Nat) (scaffold : scaffolding) :
    String :=
  if depth = 0 then ""
  else if scaffold.isList then scaffold.markup.getD indentList ""
  else if index = tree.branches.length - 1 then
    scaffold.markup.getD noBranchScaffold ""
  else scaffold.markup.getD bypassBranchScaffold ""

/-- Embeds `strings.Split(s, "\n")` at the character level. -/
def splitLines : List Char → List (List Char)
  | [] => [[]]
  | c :: rest =>
    match splitLines rest with
    | [] => [[c]]
    | l :: ls => if c = '\n' then [] :: l :: ls else (c :: l) :: ls

/-- Renders the lines of a label block after the first: each line is
emitted as the flow padding, the line and a newline. -/
def renderFlowLines (flowPad : String) : List (List Char) → String
  | [] => ""
  | line :: rest => flowPad ++ String.mk line ++ "\n" ++ renderFlowLines flowPad rest

/-- Renders the lines of a label block: the first line is emitted with the
label padding, every subsequent line with the flow padding. -/
def renderLines (labelPad flowPad : String) : List (List Char) → String
  | [] => ""
  | line :: rest => labelPad ++ String.mk line ++ "\n" ++ renderFlowLines flowPad rest

mutual

/-- Embeds the recursive `print` method: renders the branches of `tree`
into an output string, with the buffer writes turned into concatenation. -/
def Tree.print : Tree → Nat → String → scaffolding → String
  | ⟨l, bs⟩, depth, padding, scaffold => printBranches ⟨l, bs⟩ bs 0 depth padding scaffold

/-- The branch loop inside `print`: for each branch, emit the label lines
(first line with the label padding, later lines with the flow padding) and
recurse into the branch with the flow padding appended to the indent. -/
def printBranches : Tree → List Tree → Nat → Nat → String → scaffolding → String
  | _, [], _, _, _, _ => ""
  | parent, branch :: rest, index, depth, padding, scaffold =>
    renderLines (padding ++ labelPadding parent depth index scaffold)
        (padding ++ flowPadding parent depth index scaffold)
        (splitLines branch.label.data)
      ++ Tree.print branch (depth + 1)
          (padding ++ flowPadding parent depth index scaffold) scaffold
      ++ printBranches parent rest (index + 1) depth padding scaffold

end

/-- Embeds `PrintStyle` generalized over the current registry contents: an
out-of-range identifier is silently replaced by `BoxStyle` before lookup. -/
def PrintStyleWith (dict : List scaffolding) (tree : Tree) (style : TreeStyle) : String :=
  let clamped := if style < 0 ∨ (dict.length : Int) ≤ style then BoxStyle else style
  Tree.print tree 0 "" (dict.getD clamped.toNat default)

/-- Embeds `PrintStyle` on the initial built-in registry. -/
def Tree.printStyle (tree : Tree) (style : TreeStyle) : String :=
  PrintStyleWith scaffoldingDict tree style

/-- Embeds the zero-argument `Print`: the default style is `BoxStyle`. -/
def Tree.printDefault (tree : Tree) : String :=
  tree.printStyle BoxStyle

mutual

/-- Specification-side predicate: every level of the tree is sorted by
label in ascending lexical order. -/
def AllSorted : Tree → Prop
  | ⟨_, bs⟩ => bs.Pairwise (fun a b => a.label ≤ b.label) ∧ AllSortedList bs

/-- All trees of the list satisfy `AllSorted`. -/
def AllSortedList : List Tree → Prop
  | [] => True
  | b :: bs => AllSorted b ∧ AllSortedList bs

end

/-! Helper lemmas shared by the claim theorems. -/

theorem Tree.deepSort_mk (l : String) (bs : List Tree) :
    Tree.deepSort ⟨l, bs⟩ = ⟨l, (bs.mergeSort branchLE).map Tree.deepSort⟩ := by
  rw [Tree.deepSort]
  rw [List.attach_map_val]

theorem Tree.strong_ind (P : Tree → Prop)
    (h : ∀ l bs, (∀ b ∈ bs, P b) → P (Tree.mk l bs)) : ∀ t, P t := by
  have key : ∀ (n : Nat) (t : Tree), sizeOf t ≤ n → P t := by
    intro n
    induction n with
    | zero =>
      intro t ht
      obtain ⟨l, bs⟩ := t
      exact absurd ht (by simp [Tree.mk.sizeOf_spec])
    | succ n ih =>
      intro t ht
      obtain ⟨l, bs⟩ := t
      apply h
      intro b hb
      apply ih
      have h1 : sizeOf b < sizeOf bs := List.sizeOf_lt_of_mem hb
      simp [Tree.mk.sizeOf_spec] at ht
      omega
  intro t
  exact key (sizeOf t) t le_rfl

theorem branchLE_trans (a b c : Tree) (h1 : branchLE a b) (h2 : branchLE b c) :
    branchLE a c := by
  simp only [branchLE, decide_eq_true_eq] at h1 h2 ⊢
  exact le_trans h1 h2

theorem branchLE_total (a b : Tree) : branchLE a b || branchLE b a := by
  simp only [branchLE]
  rcases le_total a.label b.label with h | h <;> simp [h]

theorem allSortedList_iff (l : List Tree) : AllSortedList l ↔ ∀ b ∈ l, AllSorted b := by
  induction l with
  | nil => simp [AllSortedList]
  | cons b bs ih => simp [AllSortedList, ih]

theorem Tree.deepSort_label (t : Tree) : (Tree.deepSort t).label = t.label := by
  obtain ⟨l, bs⟩ := t
  rw [Tree.deepSort_mk]
  rfl

/-- C6: grafting an unlabeled root splices its branches onto the end of the
branch list; grafting a labeled tree appends it as exactly one new last
branch; the existing branches are preserved in order and the label of the
receiving tree is unchanged. -/
theorem addTreeAsBranch_splice_or_append (t other : Tree) :
    (other.label = "" →
      (t.addTreeAsBranch other).branches = t.branches ++ other.branches ∧
      (t.addTreeAsBranch other).branches.length =
        t.branches.length + other.branches.length) ∧
    (other.label ≠ "" →
      (t.addTreeAsBranch other).branches = t.branches ++ [other] ∧
      (t.addTreeAsBranch other).branches.length = t.branches.length + 1) ∧
    (t.addTreeAsBranch other).branches.take t.branches.length = t.branches ∧
    (t.addTreeAsBranch other).label = t.label := by
  refine ⟨fun h => ?_, fun h => ?_, ?_, ?_⟩
  · simp [Tree.addTreeAsBranch, h]
  · simp [Tree.addTreeAsBranch, h]
  · by_cases h : other.label = "" <;> simp [Tree.addTreeAsBranch, h, List.take_left]
  · by_cases h : other.label = "" <;> simp [Tree.addTreeAsBranch, h]

/-- C6 witness: both graft cases at concrete trees. -/
theorem addTreeAsBranch_splice_or_append_witness :
    (((Tree.mk "r" [Tree.mk "x" []]).addTreeAsBranch
        (Tree.mk "" [Tree.mk "p" [], Tree.mk "q" []])).branches =
      [Tree.mk "x" []] ++ [Tree.mk "p" [], Tree.mk "q" []] ∧
     ((Tree.mk "r" [Tree.mk "x" []]).addTreeAsBranch
        (Tree.mk "" [Tree.mk "p" [], Tree.mk "q" []])).branches.length = 1 + 2) ∧
    (((Tree.mk "r" [Tree.mk "x" []]).addTreeAsBranch
        (Tree.mk "lbl" [Tree.mk "p" []])).branches =
      [Tree.mk "x" []] ++ [Tree.mk "lbl" [Tree.mk "p" []]] ∧
     ((Tree.mk "r" [Tree.mk "x" []]).addTreeAsBranch
        (Tree.mk "lbl" [Tree.mk "p" []])).branches.length = 1 + 1) :=
  ⟨(addTreeAsBranch_splice_or_append (Tree.mk "r" [Tree.mk "x" []])
      (Tree.mk "" [Tree.mk "p" [], Tree.mk "q" []])).1 rfl,
   (addTreeAsBranch_splice_or_append (Tree.mk "r" [Tree.mk "x" []])
      (Tree.mk "lbl" [Tree.mk "p" []])).2.1 (by decide)⟩

/-- C8 counterexample: registering a list style with zero bullet templates
is not rejected; the registry grows by one descriptor whose markup holds
only the indent string (no templates), and the new identifier is returned. -/
theorem addListStyle_zero_templates_not_rejected_cex :
    AddListStyle scaffoldingDict "  " [] =
      (scaffoldingDict ++ [⟨true, ["  "]⟩], 15) ∧
    ((AddListStyle scaffoldingDict "  " []).1.getD 15 default).markup = ["  "] ∧
    (AddListStyle scaffoldingDict "  " []).1.length = 16 := by
  refine ⟨?_, ?_, ?_⟩ <;> decide

/-- C8 (amended): registering a list style never validates the template
count; the descriptor with the indent and the given templates is appended
at the identifier returned, even when the template list is empty. -/
theorem addListStyle_zero_templates_appended (dict : List scaffolding)
    (indent : String) (bullets : List String) :
    (AddListStyle dict indent bullets).1 = dict ++ [⟨true, indent :: bullets⟩] ∧
    (AddListStyle dict indent bullets).2 = (dict.length : Int) ∧
    (AddListStyle dict indent bullets).1.getD
        (AddListStyle dict indent bullets).2.toNat default =
      ⟨true, indent :: bullets⟩ ∧
    (AddListStyle dict indent []).1.getD
        (AddListStyle dict indent []).2.toNat default =
      ⟨true, [indent]⟩ := by
  refine ⟨rfl, rfl, ?_, ?_⟩ <;>
    simp [AddListStyle, List.getD_append_right, List.getD]

theorem printBranches_parent_label (l1 l2 : String) (bs : List Tree) :
    ∀ (bsWalk : List Tree) (index depth : Nat) (padding : String) (scaffold : scaffolding),
      printBranches ⟨l1, bs⟩ bsWalk index depth padding scaffold =
        printBranches ⟨l2, bs⟩ bsWalk index depth padding scaffold := by
  intro bsWalk
  induction bsWalk with
  | nil => intro index depth padding scaffold; rfl
  | cons branch rest ih =>
    intro index depth padding scaffold
    rw [printBranches, printBranches]
    rw [ih]
    simp only [labelPadding, flowPadding, Tree.branches_mk]

/-- C7: rendering with a negative or not currently registered style
identifier silently falls back to the default `BoxStyle`; the zero-argument
rendering also uses `BoxStyle`. -/
theorem printStyle_unknown_falls_back_to_box (extra : List scaffolding) (t : Tree)
    (style : TreeStyle)
    (h : style < 0 ∨ ((scaffoldingDict ++ extra).length : Int) ≤ style) :
    PrintStyleWith (scaffoldingDict ++ extra) t style =
      PrintStyleWith (scaffoldingDict ++ extra) t BoxStyle ∧
    t.printDefault = t.printStyle BoxStyle := by
  constructor
  · have hlen : (15 : Int) ≤ ((scaffoldingDict ++ extra).length : Int) := by
      simp [scaffoldingDict]
      omega
    have hbox : ¬((1 : Int) < 0 ∨ ((scaffoldingDict ++ extra).length : Int) ≤ (1 : Int)) := by
      omega
    unfold PrintStyleWith BoxStyle
    simp only [if_pos h, if_neg hbox]
  · rfl

/-- C7 witness: a negative identifier and a too-large identifier on the
built-in registry. -/
theorem printStyle_unknown_falls_back_to_box_witness :
    PrintStyleWith (scaffoldingDict ++ []) (Tree.mk "" [Tree.mk "x" []]) (-3) =
      PrintStyleWith (scaffoldingDict ++ []) (Tree.mk "" [Tree.mk "x" []]) BoxStyle ∧
    PrintStyleWith (scaffoldingDict ++ []) (Tree.mk "" [Tree.mk "x" []]) 99 =
      PrintStyleWith (scaffoldingDict ++ []) (Tree.mk "" [Tree.mk "x" []]) BoxStyle :=
  ⟨(printStyle_unknown_falls_back_to_box [] (Tree.mk "" [Tree.mk "x" []]) (-3)
      (by decide)).1,
   (printStyle_unknown_falls_back_to_box [] (Tree.mk "" [Tree.mk "x" []]) 99
      (by decide)).1⟩

/-- C10: the rendered output never involves the label of the node being
rendered, only the labels of its strict descendants: changing the label of
the node leaves the output of every style unchanged, and a node with no
branches renders as the empty string whatever its label. -/
theorem print_ignores_own_label :
    (∀ (dict : List scaffolding) (l1 l2 : String) (bs : List Tree) (style : TreeStyle),
      PrintStyleWith dict (Tree.mk l1 bs) style = PrintStyleWith dict (Tree.mk l2 bs) style) ∧
    (∀ (dict : List scaffolding) (l : String) (style : TreeStyle),
      PrintStyleWith dict (Tree.mk l []) style = "") := by
  constructor
  · intro dict l1 l2 bs style
    simp only [PrintStyleWith]
    rw [Tree.print, Tree.print]
    exact printBranches_parent_label l1 l2 bs bs 0 0 "" _
  · intro dict l style
    simp only [PrintStyleWith]
    rw [Tree.print]
    rfl

/-- C1: under a structural style, a branch at depth at least 1 takes the
last-sibling markup for the first line of its label exactly when it is the
last branch of its parent and the mid-sibling markup otherwise; its flow
markup (used by continuation lines of a multi-line label and appended to
the indent passed to its children) is the blank markup when last and the
bypass markup otherwise; at depth 0 both are empty.  The final conjuncts
fix how the renderer composes these paddings and check the multi-line and
unindented-root examples under the ASCII style. -/
theorem structural_style_markup_selection
    (mid lastm byp blank : String) (t : Tree) (depth index : Nat) :
    (1 ≤ depth →
      labelPadding t depth index ⟨false, [mid, lastm, byp, blank]⟩ =
        (if index = t.branches.length - 1 then lastm else mid) ∧
      flowPadding t depth index ⟨false, [mid, lastm, byp, blank]⟩ =
        (if index = t.branches.length - 1 then blank else byp)) ∧
    (labelPadding t 0 index ⟨false, [mid, lastm, byp, blank]⟩ = "" ∧
     flowPadding t 0 index ⟨false, [mid, lastm, byp, blank]⟩ = "") ∧
    (∀ (parent branch : Tree) (rest : List Tree) (i d : Nat) (pad : String)
        (sc : scaffolding),
      printBranches parent (branch :: rest) i d pad sc =
        renderLines (pad ++ labelPadding parent d i sc) (pad ++ flowPadding parent d i sc)
            (splitLines branch.label.data)
          ++ Tree.print branch (d + 1) (pad ++ flowPadding parent d i sc) sc
          ++ printBranches parent rest (i + 1) d pad sc) ∧
    (∀ (firstPad contPad : String) (line : List Char) (more : List (List Char)),
      renderLines firstPad contPad (line :: more) =
        firstPad ++ String.mk line ++ "\n" ++ renderFlowLines contPad more) ∧
    Tree.printStyle
        (Tree.mk "" [Tree.mk "x" [Tree.mk "a\nalfa\nalpha\nable" [], Tree.mk "b" []]])
        ASCIIStyle =
      "x\n|-- a\n|   alfa\n|   alpha\n|   able\n'-- b\n" ∧
    Tree.printStyle (Tree.mk "" [Tree.mk "1" [], Tree.mk "2" [], Tree.mk "3" []])
        ASCIIStyle =
      "1\n2\n3\n" := by
  have h0 : ∀ d : Nat, 1 ≤ d → d ≠ 0 := by omega
  refine ⟨fun hd => ⟨?_, ?_⟩, ⟨by simp [labelPadding], by simp [flowPadding]⟩,
    fun parent branch rest i d pad sc => rfl, fun a b c d => rfl, by decide, by decide⟩
  · by_cases hl : index = t.branches.length - 1 <;>
      simp [labelPadding, h0 depth hd, hl, lastBranchScaffold, midBranchScaffold]
  · by_cases hl : index = t.branches.length - 1 <;>
      simp [flowPadding, h0 depth hd, hl, noBranchScaffold, bypassBranchScaffold]

/-- C1 witness: the selection at depth 1 for a non-last branch of a
two-branch parent under the ASCII markup quadruple. -/
theorem structural_style_markup_selection_witness :
    labelPadding (Tree.mk "" [Tree.mk "a" [], Tree.mk "b" []]) 1 0
        ⟨false, ["|-- ", "'-- ", "|   ", "    "]⟩ =
      (if 0 = (Tree.mk "" [Tree.mk "a" [], Tree.mk "b" []]).branches.length - 1
       then "'-- " else "|-- ") ∧
    flowPadding (Tree.mk "" [Tree.mk "a" [], Tree.mk "b" []]) 1 0
        ⟨false, ["|-- ", "'-- ", "|   ", "    "]⟩ =
      (if 0 = (Tree.mk "" [Tree.mk "a" [], Tree.mk "b" []]).branches.length - 1
       then "    " else "|   ") :=
  (structural_style_markup_selection "|-- " "'-- " "|   " "    "
    (Tree.mk "" [Tree.mk "a" [], Tree.mk "b" []]) 1 0).1 (by decide)

/-- C2: under a list style with k templates, a branch at depth d at least 1
takes template number (d-1) mod k with the 1-based sibling position
substituted; a template with no recognized placeholder is used verbatim;
the flow markup is always the single indent string, whatever the position
of the branch among its siblings.  The final conjunct checks the cycling
example: with the 3 templates of the ASCII bullet style, depth 4 reuses
the first template. -/
theorem list_style_template_cycling
    (indent : String) (templates : List String) (t : Tree) (depth index : Nat)
    (hd : 1 ≤ depth) (hk : 1 ≤ templates.length) :
    labelPadding t depth index ⟨true, indent :: templates⟩ =
      replaceNumberListMarkup (templates.getD ((depth - 1) % templates.length) "")
        ((index : Int) + 1) ∧
    flowPadding t depth index ⟨true, indent :: templates⟩ = indent ∧
    (∀ (markup : String) (k : Int),
      '1' ∉ markup.data → 'a' ∉ markup.data → 'A' ∉ markup.data →
      'i' ∉ markup.data → 'I' ∉ markup.data →
      replaceNumberListMarkup markup k = markup) ∧
    Tree.printStyle
        (Tree.mk ""
          [Tree.mk "a" [Tree.mk "b" [Tree.mk "c" [Tree.mk "d" [Tree.mk "e" []]]]]])
        ASCIIBulletStyle =
      "a\n* b\n  + c\n    - d\n      * e\n" := by
  have h0 : depth ≠ 0 := by omega
  refine ⟨?_, ?_, ?_, by decide⟩
  · simp only [labelPadding, if_neg h0, levelList, List.length_cons, Nat.add_sub_cancel,
      Nat.one_add, List.getD_cons_succ]
    simp
  · simp [flowPadding, h0, indentList]
  · intro markup k h1 h2 h3 h4 h5
    simp only [replaceNumberListMarkup]
    rw [if_neg, if_neg, if_neg, if_neg, if_neg] <;>
      simp [List.contains_iff_exists_mem_beq] <;> assumption

/-- C2 witness: depth 4 with the three ASCII bullet templates reuses the
first template for the first sibling. -/
theorem list_style_template_cycling_witness :
    labelPadding (Tree.mk "" [Tree.mk "x" []]) 4 0 ⟨true, ["  ", "* ", "+ ", "- "]⟩ =
      replaceNumberListMarkup (["* ", "+ ", "- "].getD ((4 - 1) % 3) "")
        ((0 : Int) + 1) ∧
    flowPadding (Tree.mk "" [Tree.mk "x" []]) 4 0 ⟨true, ["  ", "* ", "+ ", "- "]⟩ =
      "  " :=
  ⟨(list_style_template_cycling "  " ["* ", "+ ", "- "] (Tree.mk "" [Tree.mk "x" []])
      4 0 (by decide) (by decide)).1,
   (list_style_template_cycling "  " ["* ", "+ ", "- "] (Tree.mk "" [Tree.mk "x" []])
      4 0 (by decide) (by decide)).2.1⟩

/-- Specification-side valuation of a bijective base-26 lowercase string:
digit a counts 1, digit z counts 26, positions weigh by powers of 26. -/
def alphaVal (l : List Char) : Nat :=
  l.foldl (fun acc c => acc * 26 + (c.toNat - 96)) 0

theorem char_toNat_ofNat (m : Nat) (h : m < 55296) : (Char.ofNat m).toNat = m := by
  have hv : m.isValidChar := Or.inl h
  simp [Char.ofNat, hv, Char.ofNatAux, Char.toNat, UInt32.toNat, BitVec.toNat_ofNatLt]

theorem char_le_iff_toNat (c d : Char) : c ≤ d ↔ c.toNat ≤ d.toNat := by
  rw [Char.le_def, UInt32.le_def, BitVec.le_def]
  exact Iff.rfl

theorem alphaGo_fuel (n : Nat) : ∀ f1 f2 : Nat, n ≤ f1 → n ≤ f2 →
    alphaGo f1 n = alphaGo f2 n := by
  induction n using Nat.strong_induction_on with
  | _ n ih =>
    intro f1 f2 h1 h2
    match n, f1, f2 with
    | 0, 0, f2 => cases f2 <;> rfl
    | 0, f1 + 1, f2 => cases f2 <;> rfl
    | m + 1, f1 + 1, f2 + 1 =>
      show alphaGo f1 (m / 26) ++ _ = alphaGo f2 (m / 26) ++ _
      have hm : m / 26 < m + 1 := by
        have := Nat.div_le_self m 26
        omega
      rw [ih (m / 26) hm f1 f2 (by omega) (by omega)]

theorem alphaBuild_succ (m : Nat) :
    alphaBuild (m + 1) = alphaBuild (m / 26) ++ [Char.ofNat (m % 26 + 97)] := by
  show alphaGo (m + 1) (m + 1) = alphaGo (m / 26) (m / 26) ++ _
  show alphaGo m (m / 26) ++ _ = _
  have hm : m / 26 ≤ m := Nat.div_le_self m 26
  rw [alphaGo_fuel (m / 26) m (m / 26) hm le_rfl]

theorem alphaVal_append_digit (l : List Char) (c : Char) :
    alphaVal (l ++ [c]) = alphaVal l * 26 + (c.toNat - 96) := by
  simp [alphaVal, List.foldl_append]

theorem alphaVal_alphaBuild (m : Nat) : alphaVal (alphaBuild m) = m := by
  induction m using Nat.strong_induction_on with
  | _ m ih =>
    match m with
    | 0 => rfl
    | k + 1 =>
      rw [alphaBuild_succ, alphaVal_append_digit]
      have hdiv : k / 26 < k + 1 := by
        have := Nat.div_le_self k 26
        omega
      rw [ih (k / 26) hdiv]
      have hmod : k % 26 < 26 := Nat.mod_lt k (by omega)
      rw [char_toNat_ofNat (k % 26 + 97) (by omega)]
      have := Nat.div_add_mod k 26
      omega

theorem alphaBuild_chars (m : Nat) :
    ∀ c ∈ alphaBuild m, 'a' ≤ c ∧ c ≤ 'z' := by
  induction m using Nat.strong_induction_on with
  | _ m ih =>
    match m with
    | 0 => intro c hc; cases hc
    | k + 1 =>
      rw [alphaBuild_succ]
      intro c hc
      rcases List.mem_append.mp hc with hc | hc
      · have hdiv : k / 26 < k + 1 := by
          have := Nat.div_le_self k 26
          omega
        exact ih (k / 26) hdiv c hc
      · have hc' : c = Char.ofNat (k % 26 + 97) := by
          simpa using hc
        subst hc'
        have hmod : k % 26 < 26 := Nat.mod_lt k (by omega)
        have htn : (Char.ofNat (k % 26 + 97)).toNat = k % 26 + 97 :=
          char_toNat_ofNat _ (by omega)
        constructor
        · rw [char_le_iff_toNat]
          have ha : ('a' : Char).toNat = 97 := by decide
          omega
        · rw [char_le_iff_toNat]
          have hz : ('z' : Char).toNat = 122 := by decide
          omega

theorem alphaBuild_ne_nil (m : Nat) (h : 1 ≤ m) : alphaBuild m ≠ [] := by
  match m with
  | k + 1 =>
    rw [alphaBuild_succ]
    simp

/-- C4: for positive n the alphabetic conversion is the bijective base-26
lowercase representation of n: it is a nonempty string of letters a..z
whose bijective base-26 valuation is n (such a representation is unique);
for n at most 0 it is the invalid marker. -/
theorem convertToAlpha_bijective_base26 (n : Int) :
    (n ≤ 0 → convertToAlpha n = "-") ∧
    (1 ≤ n →
      alphaVal (convertToAlpha n).data = n.toNat ∧
      (convertToAlpha n).data ≠ [] ∧
      ∀ c ∈ (convertToAlpha n).data, 'a' ≤ c ∧ c ≤ 'z') ∧
    (convertToAlpha 1 = "a" ∧ convertToAlpha 26 = "z" ∧ convertToAlpha 27 = "aa" ∧
     convertToAlpha 52 = "az" ∧ convertToAlpha 53 = "ba" ∧ convertToAlpha 702 = "zz" ∧
     convertToAlpha 703 = "aaa" ∧ convertToAlpha 0 = "-" ∧ convertToAlpha (-7) = "-") := by
  refine ⟨fun h => ?_, fun h => ?_, by decide⟩
  · simp [convertToAlpha, h]
  · have hn : ¬ n ≤ 0 := by omega
    have hpos : 1 ≤ n.toNat := by omega
    simp only [convertToAlpha, if_neg hn]
    exact ⟨alphaVal_alphaBuild n.toNat, alphaBuild_ne_nil n.toNat hpos,
      alphaBuild_chars n.toNat⟩

/-- C4 witness: the positive branch at n = 53. -/
theorem convertToAlpha_bijective_base26_witness :
    alphaVal (convertToAlpha 53).data = (53 : Int).toNat ∧
    (convertToAlpha 53).data ≠ [] ∧
    ∀ c ∈ (convertToAlpha 53).data, 'a' ≤ c ∧ c ≤ 'z' :=
  (convertToAlpha_bijective_base26 53).2.1 (by decide)

theorem romanMap_value_pos : ∀ e ∈ romanMap, 1 ≤ e.value := by decide

theorem romanMap_sorted : romanMap.Pairwise (fun a b => b.value ≤ a.value) := by decide

theorem romanMap_keys_chars :
    ∀ e ∈ romanMap, ∀ c ∈ e.key.data, c ∈ ['m', 'd', 'c', 'l', 'x', 'v', 'i'] := by decide

theorem romanGo_fuel (n : Nat) : ∀ f1 f2 : Nat, n ≤ f1 → n ≤ f2 →
    romanGo f1 n = romanGo f2 n := by
  induction n using Nat.strong_induction_on with
  | _ n ih =>
    intro f1 f2 h1 h2
    match n, f1, f2 with
    | 0, 0, f2 => cases f2 <;> rfl
    | 0, f1 + 1, f2 => cases f2 <;> rfl
    | m + 1, f1 + 1, f2 + 1 =>
      cases hfind : romanMap.find? (fun rn => decide (rn.value ≤ m + 1)) with
      | none => simp [romanGo, hfind]
      | some rn =>
        have hpos : 1 ≤ rn.value :=
          romanMap_value_pos rn (List.mem_of_find?_eq_some hfind)
        simp only [romanGo, hfind]
        rw [ih (m + 1 - rn.value) (by omega) f1 f2 (by omega) (by omega)]

theorem romanBuild_eq (m : Nat) (e : RomanEntry)
    (hfind : romanMap.find? (fun rn => decide (rn.value ≤ m)) = some e) (hm : 1 ≤ m) :
    romanBuild m = e.key ++ romanBuild (m - e.value) := by
  match m, hm with
  | k + 1, _ =>
    have hpos : 1 ≤ e.value :=
      romanMap_value_pos e (List.mem_of_find?_eq_some hfind)
    show romanGo (k + 1) (k + 1) = _
    simp only [romanGo, hfind]
    congr 1
    exact romanGo_fuel (k + 1 - e.value) k (k + 1 - e.value) (by omega) le_rfl

theorem romanMap_find_isSome (m : Nat) (hm : 1 ≤ m) :
    ∃ e, romanMap.find? (fun rn => decide (rn.value ≤ m)) = some e := by
  cases hfind : romanMap.find? (fun rn => decide (rn.value ≤ m)) with
  | some e => exact ⟨e, rfl⟩
  | none =>
    have hone : (⟨1, "i"⟩ : RomanEntry) ∈ romanMap := by decide
    have := List.find?_eq_none.mp hfind ⟨1, "i"⟩ hone
    simp at this
    omega

theorem find_first_is_max (l : List RomanEntry)
    (hs : l.Pairwise (fun a b => b.value ≤ a.value)) (m : Nat) (e : RomanEntry)
    (h : l.find? (fun rn => decide (rn.value ≤ m)) = some e) :
    ∀ x ∈ l, x.value ≤ m → x.value ≤ e.value := by
  induction l with
  | nil => cases h
  | cons a rest ih =>
    by_cases hpa : a.value ≤ m
    · rw [List.find?_cons_of_pos _ (by simpa using hpa)] at h
      obtain rfl : a = e := by simpa using h
      intro x hx hxm
      rcases List.mem_cons.mp hx with rfl | hx
      · exact le_rfl
      · exact (List.pairwise_cons.mp hs).1 x hx
    · rw [List.find?_cons_of_neg _ (by simpa using hpa)] at h
      intro x hx hxm
      rcases List.mem_cons.mp hx with rfl | hx
      · exact absurd hxm hpa
      · exact ih (List.pairwise_cons.mp hs).2 h x hx hxm

theorem romanBuild_chars (m : Nat) :
    ∀ c ∈ (romanBuild m).data, c ∈ ['m', 'd', 'c', 'l', 'x', 'v', 'i'] := by
  induction m using Nat.strong_induction_on with
  | _ m ih =>
    match m with
    | 0 => intro c hc; cases hc
    | k + 1 =>
      obtain ⟨e, hfind⟩ := romanMap_find_isSome (k + 1) (by omega)
      have hpos : 1 ≤ e.value :=
        romanMap_value_pos e (List.mem_of_find?_eq_some hfind)
      rw [romanBuild_eq (k + 1) e hfind (by omega)]
      intro c hc
      rw [String.data_append] at hc
      rcases List.mem_append.mp hc with hc | hc
      · exact romanMap_keys_chars e (List.mem_of_find?_eq_some hfind) c hc
      · exact ih (k + 1 - e.value) (by omega) c hc

/-- C5: for positive n the Roman conversion repeatedly appends the key of
the largest applicable table entry (the greedy subtractive construction
over the table m, cm, d, cd, c, xc, l, xl, x, ix, v, iv, i) and its output
uses only lowercase numeral letters; for n at most 0 it returns the same
invalid marker as the alphabetic conversion.  The final conjunct checks
the canonical examples, including 1994. -/
theorem convertToRoman_greedy_subtractive (n : Int) :
    (n ≤ 0 → convertToRoman n = "-" ∧ convertToRoman n = convertToAlpha n) ∧
    (1 ≤ n → ∃ e, e ∈ romanMap ∧ e.value ≤ n.toNat ∧
      (∀ x ∈ romanMap, x.value ≤ n.toNat → x.value ≤ e.value) ∧
      convertToRoman n = e.key ++ romanBuild (n.toNat - e.value)) ∧
    (1 ≤ n → ∀ c ∈ (convertToRoman n).data, c ∈ ['m', 'd', 'c', 'l', 'x', 'v', 'i']) ∧
    (convertToRoman 1 = "i" ∧ convertToRoman 4 = "iv" ∧ convertToRoman 9 = "ix" ∧
     convertToRoman 40 = "xl" ∧ convertToRoman 90 = "xc" ∧ convertToRoman 400 = "cd" ∧
     convertToRoman 900 = "cm" ∧ convertToRoman 1994 = "mcmxciv" ∧
     convertToRoman 3999 = "mmmcmxcix" ∧ convertToRoman 0 = "-" ∧
     convertToRoman (-3) = "-") := by
  refine ⟨fun h => ?_, fun h => ?_, fun h => ?_, by decide⟩
  · constructor <;> simp [convertToRoman, convertToAlpha, h]
  · have hn : ¬ n ≤ 0 := by omega
    have hm : 1 ≤ n.toNat := by omega
    obtain ⟨e, hfind⟩ := romanMap_find_isSome n.toNat hm
    refine ⟨e, List.mem_of_find?_eq_some hfind, by simpa using List.find?_some hfind,
      find_first_is_max romanMap romanMap_sorted n.toNat e hfind, ?_⟩
    simp only [convertToRoman, if_neg hn]
    exact romanBuild_eq n.toNat e hfind hm
  · have hn : ¬ n ≤ 0 := by omega
    simp only [convertToRoman, if_neg hn]
    exact romanBuild_chars n.toNat

/-- C5 witness: the greedy step at n = 1994. -/
theorem convertToRoman_greedy_subtractive_witness :
    (∃ e, e ∈ romanMap ∧ e.value ≤ (1994 : Int).toNat ∧
      (∀ x ∈ romanMap, x.value ≤ (1994 : Int).toNat → x.value ≤ e.value) ∧
      convertToRoman 1994 = e.key ++ romanBuild ((1994 : Int).toNat - e.value)) ∧
    (convertToRoman (-3) = "-" ∧ convertToRoman (-3) = convertToAlpha (-3)) :=
  ⟨(convertToRoman_greedy_subtractive 1994).2.1 (by decide),
   (convertToRoman_greedy_subtractive (-3)).1 (by decide)⟩

theorem branchLE_deepSort (a b : Tree) (h : branchLE a b) :
    branchLE (Tree.deepSort a) (Tree.deepSort b) := by
  simp only [branchLE, decide_eq_true_eq, Tree.deepSort_label] at h ⊢
  exact h

theorem allSorted_mk (l : String) (bs : List Tree) :
    AllSorted (Tree.mk l bs) ↔
      bs.Pairwise (fun a b => a.label ≤ b.label) ∧ AllSortedList bs := by
  rw [AllSorted]

theorem allSorted_deepSort : ∀ t : Tree, AllSorted t.deepSort := by
  apply Tree.strong_ind
  intro l bs ih
  rw [Tree.deepSort_mk, allSorted_mk]
  have hsorted : (bs.mergeSort branchLE).Pairwise (fun a b => branchLE a b) :=
    List.sorted_mergeSort branchLE_trans branchLE_total bs
  constructor
  · refine List.Pairwise.map _ ?_ hsorted
    intro a b hab
    simpa [branchLE, Tree.deepSort_label] using hab
  · rw [allSortedList_iff]
    intro x hx
    obtain ⟨b, hb, rfl⟩ := List.mem_map.mp hx
    exact ih b (List.mem_mergeSort.mp hb)

theorem deepSort_idem : ∀ t : Tree, t.deepSort.deepSort = t.deepSort := by
  apply Tree.strong_ind
  intro l bs ih
  rw [Tree.deepSort_mk, Tree.deepSort_mk]
  have hsorted : (bs.mergeSort branchLE).Pairwise (fun a b => branchLE a b) :=
    List.sorted_mergeSort branchLE_trans branchLE_total bs
  have hsorted2 : ((bs.mergeSort branchLE).map Tree.deepSort).Pairwise
      (fun a b => branchLE a b) :=
    List.Pairwise.map _ (fun a b hab => branchLE_deepSort a b hab) hsorted
  rw [List.mergeSort_of_sorted hsorted2]
  rw [List.map_map]
  congr 1
  apply List.map_congr_left
  intro b hb
  exact ih b (List.mem_mergeSort.mp hb)

/-- C9: plain sort keeps the label and permutes only the immediate branch
list into ascending lexical label order, stably (pairs already in order by
label keep their relative positions); deep sort does the same at every
level (every level of the result is sorted) and is idempotent. -/
theorem sort_deepSort_spec (t : Tree) :
    ((t.sort).label = t.label ∧
     (t.sort).branches.Perm t.branches ∧
     (t.sort).branches.Pairwise (fun a b => a.label ≤ b.label)) ∧
    (∀ a b : Tree, [a, b].Sublist t.branches → a.label ≤ b.label →
      [a, b].Sublist (t.sort).branches) ∧
    ((t.deepSort).label = t.label ∧
     AllSorted t.deepSort ∧
     (t.deepSort).branches.Perm (t.branches.map Tree.deepSort)) ∧
    (∀ a b : Tree, [a, b].Sublist t.branches → a.label ≤ b.label →
      [Tree.deepSort a, Tree.deepSort b].Sublist (t.deepSort).branches) ∧
    t.deepSort.deepSort = t.deepSort := by
  obtain ⟨l, bs⟩ := t
  refine ⟨⟨rfl, ?_, ?_⟩, ?_, ⟨Tree.deepSort_label _, allSorted_deepSort _, ?_⟩, ?_, ?_⟩
  · exact List.mergeSort_perm bs branchLE
  · have hsorted : (bs.mergeSort branchLE).Pairwise (fun a b => branchLE a b) :=
      List.sorted_mergeSort branchLE_trans branchLE_total bs
    exact hsorted.imp (fun hab => by simpa [branchLE] using hab)
  · intro a b hsub hab
    exact List.pair_sublist_mergeSort branchLE_trans branchLE_total
      (by simpa [branchLE] using hab) hsub
  · rw [Tree.deepSort_mk]
    exact (List.mergeSort_perm bs branchLE).map Tree.deepSort
  · intro a b hsub hab
    rw [Tree.deepSort_mk]
    exact (List.pair_sublist_mergeSort branchLE_trans branchLE_total
      (by simpa [branchLE] using hab) hsub).map Tree.deepSort
  · exact deepSort_idem _

/-- C9 witness: stability at a concrete tree whose two branches carry the
same label; both pair-stability conjuncts are applied with their
hypotheses discharged. -/
theorem sort_deepSort_spec_witness :
    [Tree.mk "b" [Tree.mk "1" []], Tree.mk "b" []].Sublist
      ((Tree.mk "" [Tree.mk "b" [Tree.mk "1" []], Tree.mk "b" []]).sort).branches ∧
    [Tree.deepSort (Tree.mk "b" [Tree.mk "1" []]), Tree.deepSort (Tree.mk "b" [])].Sublist
      ((Tree.mk "" [Tree.mk "b" [Tree.mk "1" []], Tree.mk "b" []]).deepSort).branches :=
  ⟨(sort_deepSort_spec (Tree.mk "" [Tree.mk "b" [Tree.mk "1" []], Tree.mk "b" []])).2.1
      (Tree.mk "b" [Tree.mk "1" []]) (Tree.mk "b" []) (List.Sublist.refl _) le_rfl,
   (sort_deepSort_spec (Tree.mk "" [Tree.mk "b" [Tree.mk "1" []], Tree.mk "b" []])).2.2.2.1
      (Tree.mk "b" [Tree.mk "1" []]) (Tree.mk "b" []) (List.Sublist.refl _) le_rfl⟩

@[simp] theorem string_data_mk (l : List Char) : (String.mk l).data = l := rfl

theorem getLast_cons_ne (x : Char) (pre : List Char) (hx : x ≠ ' ')
    (hlast : ∀ h : pre ≠ [], pre.getLast h ≠ ' ') :
    ∀ h : x :: pre ≠ [], (x :: pre).getLast h ≠ ' ' := by
  cases pre with
  | nil => intro h; simpa using hx
  | cons p0 ps =>
    intro h
    rw [List.getLast_cons (by simp)]
    exact hlast (by simp)

theorem regexMatchAt_spaces (c : Char) (hc : c ≠ ' ') :
    ∀ (sp tail : List Char), (∀ x ∈ sp, x = ' ') →
      regexMatchAt c (sp ++ c :: tail) = some (sp.length + 1) := by
  intro sp
  induction sp with
  | nil =>
    intro tail _
    rw [List.nil_append, regexMatchAt, if_neg hc, if_pos rfl]
    rfl
  | cons x sp ih =>
    intro tail hsp
    have hx : x = ' ' := hsp x (by simp)
    subst hx
    rw [List.cons_append, regexMatchAt, if_pos rfl, ih tail (fun y hy => hsp y (by simp [hy]))]
    simp

theorem regexMatchAt_some (c : Char) (hc : c ≠ ' ') :
    ∀ (l : List Char) (n : Nat), regexMatchAt c l = some n →
      ∃ sp tail, l = sp ++ c :: tail ∧ (∀ x ∈ sp, x = ' ') ∧ n = sp.length + 1 := by
  intro l
  induction l with
  | nil => intro n h; cases h
  | cons x rest ih =>
    intro n h
    by_cases hx : x = ' '
    · subst hx
      rw [regexMatchAt, if_pos rfl] at h
      cases hin : regexMatchAt c rest with
      | none =>
        rw [hin, if_neg (Ne.symm hc)] at h
        cases h
      | some k =>
        rw [hin] at h
        obtain ⟨sp, tail, rfl, hsp, rfl⟩ := ih k hin
        refine ⟨' ' :: sp, tail, rfl, ?_, by simpa using h.symm⟩
        intro y hy
        rcases List.mem_cons.mp hy with rfl | hy
        · rfl
        · exact hsp y hy
    · rw [regexMatchAt, if_neg hx] at h
      by_cases hxc : x = c
      · subst hxc
        rw [if_pos rfl] at h
        refine ⟨[], rest, rfl, by simp, by simpa using h.symm⟩
      · rw [if_neg hxc] at h
        cases h

theorem first_occurrence_front_unique (c : Char) :
    ∀ (A B t1 t2 : List Char), A ++ c :: t1 = B ++ c :: t2 → c ∉ A → c ∉ B → A = B := by
  intro A
  induction A with
  | nil =>
    intro B t1 t2 heq _ hB
    cases B with
    | nil => rfl
    | cons b B =>
      have hb : c = b := by simpa using congrArg (fun l => l.head?) heq
      exact absurd (by simp [hb.symm] : c ∈ b :: B) hB
  | cons a A ih =>
    intro B t1 t2 heq hA hB
    cases B with
    | nil =>
      have ha : a = c := by simpa using congrArg (fun l => l.head?) heq
      exact absurd (by simp [ha] : c ∈ a :: A) hA
    | cons b B =>
      have hab : a = b := by simpa using congrArg (fun l => l.head?) heq
      have htail : A ++ c :: t1 = B ++ c :: t2 := by simpa using congrArg List.tail heq
      rw [hab, ih B t1 t2 htail (fun h => hA (by simp [h])) (fun h => hB (by simp [h]))]

theorem regexMatchAt_none_of_decomp (c : Char) (hc : c ≠ ' ')
    (pre spaces suf : List Char) (hpre : pre ≠ [])
    (hlast : pre.getLast hpre ≠ ' ') (hcp : c ∉ pre)
    (hsp : ∀ x ∈ spaces, x = ' ') :
    regexMatchAt c (pre ++ spaces ++ c :: suf) = none := by
  cases hm : regexMatchAt c (pre ++ spaces ++ c :: suf) with
  | none => rfl
  | some n =>
    obtain ⟨sp, tail, heq, hspl, _⟩ := regexMatchAt_some c hc _ n hm
    have hassoc : (pre ++ spaces) ++ c :: suf = sp ++ c :: tail := by
      simpa [List.append_assoc] using heq
    have hnps : c ∉ pre ++ spaces := by
      intro hmem
      rcases List.mem_append.mp hmem with h | h
      · exact hcp h
      · exact hc (hsp c h)
    have hnsp : c ∉ sp := fun h => hc (hspl c h)
    have hpreq : pre ++ spaces = sp := first_occurrence_front_unique c _ _ _ _ hassoc hnps hnsp
    have hmem : pre.getLast hpre ∈ sp := by
      rw [← hpreq]
      exact List.mem_append.mpr (Or.inl (List.getLast_mem hpre))
    exact absurd (hspl _ hmem) hlast

theorem regexMatchAt_none_of_not_mem (c : Char) :
    ∀ l : List Char, c ∉ l → regexMatchAt c l = none := by
  intro l
  induction l with
  | nil => intro _; rfl
  | cons x rest ih =>
    intro h
    have hxc : x ≠ c := fun hx => h (by simp [hx])
    have hrest : c ∉ rest := fun hr => h (by simp [hr])
    rw [regexMatchAt]
    by_cases hx : x = ' '
    · rw [if_pos hx, ih hrest, if_neg hxc]
    · rw [if_neg hx, if_neg hxc]

theorem regexFind_none (c : Char) :
    ∀ (l : List Char) (st : Nat), c ∉ l → regexFind c l st = none := by
  intro l
  induction l with
  | nil => intro st _; rfl
  | cons x rest ih =>
    intro st h
    have hrest : c ∉ rest := fun hr => h (by simp [hr])
    rw [regexFind, regexMatchAt_none_of_not_mem c _ h]
    exact ih (st + 1) hrest

theorem regexFind_shift (c : Char) :
    ∀ (l : List Char) (st : Nat),
      regexFind c l st = (regexFind c l 0).map (fun p => (st + p.1, st + p.2)) := by
  intro l
  induction l with
  | nil => intro st; rfl
  | cons x rest ih =>
    intro st
    rw [regexFind, regexFind]
    cases hm : regexMatchAt c (x :: rest) with
    | some len => simp
    | none =>
      rw [ih (st + 1), ih 1]
      cases regexFind c rest 0 with
      | none => rfl
      | some p => simp [Nat.add_assoc]

theorem regexFind_cons_none (c x : Char) (rest : List Char) (st : Nat)
    (h : regexMatchAt c (x :: rest) = none) :
    regexFind c (x :: rest) st = regexFind c rest (st + 1) := by
  rw [regexFind, h]

theorem regexFind_cons_some (c x : Char) (rest : List Char) (st len : Nat)
    (h : regexMatchAt c (x :: rest) = some len) :
    regexFind c (x :: rest) st = some (st, st + len) := by
  rw [regexFind, h]

theorem regexFind_decomp (c : Char) (hc : c ≠ ' ') :
    ∀ l : List Char, c ∈ l →
      ∃ pre spaces suf,
        l = pre ++ spaces ++ c :: suf ∧
        (∀ x ∈ spaces, x = ' ') ∧
        c ∉ pre ∧
        (∀ h : pre ≠ [], pre.getLast h ≠ ' ') ∧
        regexFind c l 0 = some (pre.length, pre.length + spaces.length + 1) := by
  intro l
  induction l with
  | nil => intro h; cases h
  | cons x rest ih =>
    intro hmem
    by_cases hxc : x = c
    · refine ⟨[], [], rest, by simp [hxc], by simp, by simp, by simp, ?_⟩
      have hm : regexMatchAt c (x :: rest) = some 1 := by
        rw [hxc]
        simpa using regexMatchAt_spaces c hc [] rest (by simp)
      rw [regexFind_cons_some c x rest 0 1 hm]
      rfl
    · have hrest : c ∈ rest := by
        rcases List.mem_cons.mp hmem with h | h
        · exact absurd h.symm hxc
        · exact h
      obtain ⟨pre, spaces, suf, rfl, hsp, hcp, hlast, hfind⟩ := ih hrest
      by_cases hx : x = ' '
      · cases pre with
        | nil =>
          refine ⟨[], x :: spaces, suf, by simp, ?_, by simp, by simp, ?_⟩
          · intro y hy
            rcases List.mem_cons.mp hy with rfl | hy
            · exact hx
            · exact hsp y hy
          · have hm : regexMatchAt c (x :: ([] ++ spaces ++ c :: suf)) =
                some ((x :: spaces).length + 1) := by
              have hall : ∀ y ∈ x :: spaces, y = ' ' := by
                intro y hy
                rcases List.mem_cons.mp hy with rfl | hy
                · exact hx
                · exact hsp y hy
              have h2 := regexMatchAt_spaces c hc (x :: spaces) suf hall
              simpa [List.append_assoc] using h2
            rw [regexFind_cons_some c x _ 0 _ hm]
            simp
        | cons p0 ps =>
          refine ⟨x :: p0 :: ps, spaces, suf, rfl, hsp, ?_, ?_, ?_⟩
          · intro hcm
            rcases List.mem_cons.mp hcm with h | h
            · exact hxc h.symm
            · exact hcp h
          · intro h
            rw [List.getLast_cons (by simp)]
            exact hlast (by simp)
          · have hm : regexMatchAt c (x :: ((p0 :: ps) ++ spaces ++ c :: suf)) = none := by
              have hinner : regexMatchAt c ((p0 :: ps) ++ spaces ++ c :: suf) = none :=
                regexMatchAt_none_of_decomp c hc (p0 :: ps) spaces suf (by simp)
                  (hlast (by simp)) hcp hsp
              rw [regexMatchAt, if_pos hx, hinner, if_neg (fun he => hxc he)]
            rw [regexFind_cons_none c x _ 0 hm, regexFind_shift c _ 1, hfind]
            simp only [Option.map_some', Option.some.injEq, Prod.mk.injEq, List.length_cons]
            omega
      · refine ⟨x :: pre, spaces, suf, rfl, hsp, ?_, ?_, ?_⟩
        · intro hcm
          rcases List.mem_cons.mp hcm with h | h
          · exact hxc h.symm
          · exact hcp h
        · exact getLast_cons_ne x pre hx hlast
        · have hm : regexMatchAt c (x :: (pre ++ spaces ++ c :: suf)) = none := by
            rw [regexMatchAt, if_neg hx, if_neg hxc]
          rw [regexFind_cons_none c x _ 0 hm, regexFind_shift c _ 1, hfind]
          simp only [Option.map_some', Option.some.injEq, Prod.mk.injEq, List.length_cons]
          omega

/-- C3: placeholder substitution locates the first occurrence of the
placeholder character together with the maximal run of spaces immediately
to its left (the span), and replaces the span with the value right-aligned
by space padding to the width of the span; a wider value is used unpadded,
extending the result to the right without truncation; when the placeholder
does not occur the template is unchanged.  The final conjunct checks the
fit, exact-fit, overflow and not-found examples. -/
theorem replaceNumberPlaceholder_spec (c : Char) (v : String) (l : List Char)
    (hc : c ≠ ' ') :
    (c ∉ l → replaceNumberPlaceholder (String.mk l) c v = String.mk l) ∧
    (c ∈ l → ∃ pre spaces suf,
      l = pre ++ spaces ++ c :: suf ∧
      (∀ x ∈ spaces, x = ' ') ∧
      c ∉ pre ∧
      (∀ h : pre ≠ [], pre.getLast h ≠ ' ') ∧
      replaceNumberPlaceholder (String.mk l) c v =
        String.mk pre ++ padValue (spaces.length + 1) v ++ String.mk suf) ∧
    (∀ w : Nat, ∃ pad : List Char,
      padValue w v = String.mk pad ++ v ∧
      (∀ x ∈ pad, x = ' ') ∧
      (padValue w v).data.length = max w v.data.length) ∧
    (replaceNumberPlaceholder "  1" '1' "x" = "  x" ∧
     replaceNumberPlaceholder "  1" '1' "xxx" = "xxx" ∧
     replaceNumberPlaceholder "  1" '1' "xxxx" = "xxxx" ∧
     replaceNumberPlaceholder "ab" '1' "x" = "ab") := by
  refine ⟨fun h => ?_, fun hmem => ?_, fun w => ?_, by decide⟩
  · simp only [replaceNumberPlaceholder, string_data_mk, regexFind_none c l 0 h]
  · obtain ⟨pre, spaces, suf, heq, hsp, hcp, hlast, hfind⟩ := regexFind_decomp c hc l hmem
    subst heq
    refine ⟨pre, spaces, suf, rfl, hsp, hcp, hlast, ?_⟩
    have harg : pre.length + spaces.length + 1 - pre.length = spaces.length + 1 := by
      omega
    have htake : (pre ++ spaces ++ c :: suf).take pre.length = pre := by
      rw [List.append_assoc]
      exact List.take_left pre (spaces ++ c :: suf)
    have hdrop : (pre ++ spaces ++ c :: suf).drop (pre.length + spaces.length + 1) =
        suf := by
      have h1 : pre ++ spaces ++ c :: suf = (pre ++ spaces ++ [c]) ++ suf := by simp
      have h2 : pre.length + spaces.length + 1 = (pre ++ spaces ++ [c]).length := by
        simp <;> omega
      rw [h1, h2, List.drop_left]
    simp only [replaceNumberPlaceholder, string_data_mk, hfind, harg, htake, hdrop]
  · by_cases hw : v.data.length < w
    · refine ⟨List.replicate (w - v.data.length) ' ', by rw [padValue, if_pos hw],
        fun x hx => List.eq_of_mem_replicate hx, ?_⟩
      rw [padValue, if_pos hw]
      rw [String.data_append]
      simp only [string_data_mk, List.length_append, List.length_replicate]
      omega
    · refine ⟨[], ?_, by simp, ?_⟩
      · rw [padValue, if_neg hw]
        apply String.ext
        simp [String.data_append]
      · rw [padValue, if_neg hw]
        omega

/-- C3 witness: the found case applied at the fit example, template two
spaces then the digit 1, value x. -/
theorem replaceNumberPlaceholder_spec_witness :
    ∃ pre spaces suf,
      ([' ', ' ', '1'] : List Char) = pre ++ spaces ++ '1' :: suf ∧
      (∀ x ∈ spaces, x = ' ') ∧
      '1' ∉ pre ∧
      (∀ h : pre ≠ [], pre.getLast h ≠ ' ') ∧
      replaceNumberPlaceholder (String.mk [' ', ' ', '1']) '1' "x" =
        String.mk pre ++ padValue (spaces.length + 1) "x" ++ String.mk suf :=
  (replaceNumberPlaceholder_spec '1' "x" [' ', ' ', '1'] (by decide)).2.1 (by decide)

end PrintTree
